import Mathlib

set_option maxHeartbeats 1000000
set_option linter.unusedVariables false

/-!
Shallow embedding of the AH-premium monitoring scripts
(`get_ah_premium_data.py`, `continuous_monitor.py`,
`get_history_premium_data.py`).

Conventions of the embedding:
* trading dates are modelled as natural numbers (day indices); the
  `strftime('%Y-%m-%d')` round trips in the source are injective and
  order preserving, so they are dropped;
* pandas `NaN` cells are modelled as `none : Option ℚ`; prices and
  rates are exact rationals;
* a pandas `DataFrame` in long format is a `List Row`;
* a wide pivot table (`DataFrame` with stock rows and date columns) is
  a `WideTable` holding the row index, the column index and the cell
  matrix.
-/

/-- A long-format price observation row, as produced by
`get_ah_premium_data` (one row per stock and trading day). -/
structure Row where
  date : ℕ
  stock_name : String
  A_stock_code : String
  H_stock_code : String
  A_price : Option ℚ
  H_price : Option ℚ
  exchange_rate : Option ℚ
  HA_premium_rate : Option ℚ
deriving DecidableEq, Repr

/-- The de-duplication key used by
`df.drop_duplicates(subset=['stock_name', 'date'])`. -/
def keyOf (r : Row) : String × ℕ := (r.stock_name, r.date)

/-- `pandas.DataFrame.drop_duplicates(subset=['stock_name','date'])`:
keep each row exactly when no earlier row has the same
`(stock_name, date)` key, preserving order. -/
def dedupFirst : List Row → List Row
  | [] => []
  | r :: rs => r :: (dedupFirst rs).filter fun x => decide (keyOf x ≠ keyOf r)

/-- Sorted list of the distinct values of `l` (the index produced by a
pandas `groupby`/`pivot_table` with `sort=True`). -/
def sortedDedup {α : Type} [LinearOrder α] (l : List α) : List α :=
  List.insertionSort (· ≤ ·) l.dedup

/-- A wide pivot table: row labels (stock names), column labels
(dates) and the cell matrix, row major. -/
structure WideTable where
  stocks : List String
  dates : List ℕ
  cells : List (List (Option ℚ))
deriving DecidableEq, Repr

/-- The value the pivot places at `(s, d)`: the metric `v` of the
first retained row with that key (`NaN` propagates as `none`). -/
def cellVal (df : List Row) (v : Row → Option ℚ) (s : String) (d : ℕ) : Option ℚ :=
  ((dedupFirst df).find? fun r => r.stock_name == s && r.date == d).bind v

/-- Row index of the pivot before the all-`NaN` drop (sorted distinct
stock names of the de-duplicated frame). -/
def pivotStocks0 (df : List Row) : List String :=
  sortedDedup ((dedupFirst df).map (·.stock_name))

/-- Column index of the pivot before the all-`NaN` drop (sorted
distinct dates of the de-duplicated frame). -/
def pivotDates0 (df : List Row) : List ℕ :=
  sortedDedup ((dedupFirst df).map (·.date))

/-- Row index of `pivot_table` after dropping all-`NaN` rows
(`dropna=True` behaviour of `pandas.pivot_table`). -/
def pivotStocks (df : List Row) (v : Row → Option ℚ) : List String :=
  (pivotStocks0 df).filter fun s =>
    (pivotDates0 df).any fun d => (cellVal df v s d).isSome

/-- Column index of `pivot_table` after dropping all-`NaN` columns
(`dropna=True` behaviour of `pandas.pivot_table`). -/
def pivotDates (df : List Row) (v : Row → Option ℚ) : List ℕ :=
  (pivotDates0 df).filter fun d =>
    (pivotStocks df v).any fun s => (cellVal df v s d).isSome

/-- `create_pivot_table(df, value_col)` from `continuous_monitor.py`:
de-duplicate on `(stock_name, date)` keeping the first occurrence,
then `pivot_table(index='stock_name', columns='date', values=v)`. -/
def create_pivot_table (df : List Row) (v : Row → Option ℚ) : WideTable :=
  ⟨pivotStocks df v, pivotDates df v,
    (pivotStocks df v).map fun s => (pivotDates df v).map (cellVal df v s)⟩

/-- Label-based row lookup in a wide table (first matching label). -/
def lookupRow : List String → List (List (Option ℚ)) → String → Option (List (Option ℚ))
  | s0 :: ss, c0 :: cs, s => if s0 = s then some c0 else lookupRow ss cs s
  | _, _, _ => none

/-- Label-based cell lookup inside one row (first matching date). -/
def lookupVal : List ℕ → List (Option ℚ) → ℕ → Option (Option ℚ)
  | d0 :: ds, x0 :: xs, d => if d0 = d then some x0 else lookupVal ds xs d
  | _, _, _ => none

/-- The row of `t` labelled `s`; a label absent from the index reads
as an all-`NaN` row (the alignment rule of `pd.concat(axis=1)`). -/
def rowOf (t : WideTable) (s : String) : List (Option ℚ) :=
  (lookupRow t.stocks t.cells s).getD (List.replicate t.dates.length none)

/-- The cell of `t` at row `s`, column `d`; absent labels and absent
cells both read as `NaN`. -/
def WideTable.cellAt (t : WideTable) (s : String) (d : ℕ) : Option ℚ :=
  match lookupRow t.stocks t.cells s with
  | some row => (lookupVal t.dates row d).getD none
  | none => none

/-- `pd.concat([t1, t2], axis=1)` with the default `join='outer'`,
`sort=False`: columns of `t1` then columns of `t2`; the row index is
`t1`'s labels followed by the labels of `t2` not already present;
missing cells are filled with `NaN`. -/
def concatTables (t1 t2 : WideTable) : WideTable :=
  let stocksU := t1.stocks ++ t2.stocks.filter fun s => decide (s ∉ t1.stocks)
  ⟨stocksU, t1.dates ++ t2.dates, stocksU.map fun s => rowOf t1 s ++ rowOf t2 s⟩

/-- Reindex a wide table with its row labels sorted ascending (the
row order a direct pivot would produce). -/
def sortRows (t : WideTable) : WideTable :=
  let ss := List.insertionSort (fun a b : String => a ≤ b) t.stocks
  ⟨ss, t.dates, ss.map (rowOf t)⟩

/-- A stock-pool entry as returned by `get_ah_shhk_connect_stocks`
(columns `H_stock_code`, `A_stock_code`, `stock_name`). -/
structure PoolEntry where
  H_stock_code : String
  A_stock_code : String
  stock_name : String
deriving DecidableEq, Repr

/-- Modelled provider responses for the two `w.wsd` calls issued by
`get_ah_premium_data`: whether each query succeeded with a non-empty
payload (`ErrorCode == 0` and `Data` non-empty), the date axis of each
response, and the close values (with `none` for `NaN`). -/
structure Provider where
  priceOk : Bool
  priceDates : List ℕ
  close : String → ℕ → Option ℚ
  fxOk : Bool
  fxDates : List ℕ
  fxClose : ℕ → Option ℚ

/-- A query sent to the market-data provider (`w.wsd` call), recorded
with its date range. -/
inductive WQuery where
  | priceQuery (start_date end_date : ℕ)
  | fxQuery (start_date end_date : ℕ)
deriving DecidableEq, Repr

/-- The premium formula of `get_ah_premium_data`:
`np.where(A.isnull() | (A == 0), nan, H / fx / A - 1)`; `NaN` inputs
propagate through the float arithmetic as `none`. -/
def computePremium (a h f : Option ℚ) : Option ℚ :=
  match a with
  | none => none
  | some av =>
    if av = 0 then none
    else
      match h, f with
      | some hv, some fv => some (hv / fv / av - 1)
      | _, _ => none

/-- The melt of the wide price response
(`price_df.reset_index().melt(id_vars='date', ...)`): one
`(date, code, price)` triple per response column and date, stacked
column by column. -/
def priceLong (codes : List String) (p : Provider) : List (ℕ × String × Option ℚ) :=
  codes.flatMap fun c => p.priceDates.map fun d => (d, c, p.close c d)

/-- `pd.merge(a_price_df, stock_pool_df, on='A_stock_code',
how='inner')`: each A-price row joined with every pool entry sharing
its A-code, producing partially filled observation rows. -/
def mergedA (aRows : List (ℕ × String × Option ℚ)) (pool : List PoolEntry) : List Row :=
  aRows.flatMap fun ar =>
    (pool.filter fun e => e.A_stock_code == ar.2.1).map fun e =>
      { date := ar.1, stock_name := e.stock_name, A_stock_code := ar.2.1,
        H_stock_code := e.H_stock_code, A_price := ar.2.2,
        H_price := none, exchange_rate := none, HA_premium_rate := none }

/-- `pd.merge(merged_a, h_price_df, on=['date', 'H_stock_code'],
how='left')`: each left row keeps all matches, or a single `NaN`-filled
match when none exists. -/
def leftJoinH (rows : List Row) (hRows : List (ℕ × String × Option ℚ)) : List Row :=
  rows.flatMap fun m =>
    match hRows.filter fun hr => hr.1 == m.date && hr.2.1 == m.H_stock_code with
    | [] => [{ m with H_price := none }]
    | hs => hs.map fun hr => { m with H_price := hr.2.2 }

/-- `pd.merge(merged_prices, exchange_rate_df.reset_index(),
on='date', how='left')` against the FX response rows. -/
def leftJoinFx (rows : List Row) (p : Provider) : List Row :=
  rows.flatMap fun m =>
    match p.fxDates.filter fun d => d == m.date with
    | [] => [{ m with exchange_rate := none }]
    | ds => ds.map fun d => { m with exchange_rate := p.fxClose d }

/-- The `sort_values(by=['date', 'stock_name'])` order. -/
def rowLe (a b : Row) : Prop :=
  a.date < b.date ∨ (a.date = b.date ∧ a.stock_name ≤ b.stock_name)

instance : DecidableRel rowLe := fun a b =>
  inferInstanceAs (Decidable (a.date < b.date ∨ (a.date = b.date ∧ a.stock_name ≤ b.stock_name)))

/-- `get_ah_premium_data(stock_pool_df, start_date, end_date)` from
`get_ah_premium_data.py`, together with the log of provider queries it
issues.  Guards, joins, the premium computation, the `dropna` on
`A_price`/`H_price`/`exchange_rate` and the final sort follow the
source line by line. -/
def get_ah_premium_data (windAvailable : Bool) (stock_pool : Option (List PoolEntry))
    (start_date : ℕ) (end_date : Option ℕ) (p : Provider) : List Row × List WQuery :=
  if !windAvailable then ([], [])
  else
    match stock_pool with
    | none => ([], [])
    | some pool =>
      if pool.isEmpty then ([], [])
      else
        let ed := end_date.getD start_date
        let q1 : List WQuery := [.priceQuery start_date ed]
        if !p.priceOk then ([], q1)
        else
          let q2 := q1 ++ [.fxQuery start_date ed]
          if !p.fxOk then ([], q2)
          else
            let all_a := pool.map (·.A_stock_code)
            let all_h := pool.map (·.H_stock_code)
            let all_codes := all_a ++ all_h
            let plong := priceLong all_codes p
            let aRows := plong.filter fun r => all_a.contains r.2.1
            let hRows := plong.filter fun r => all_h.contains r.2.1
            let m3 := leftJoinFx (leftJoinH (mergedA aRows pool) hRows) p
            let m4 := m3.map fun r =>
              { r with HA_premium_rate := computePremium r.A_price r.H_price r.exchange_rate }
            let m5 := m4.filter fun r =>
              r.A_price.isSome && r.H_price.isSome && r.exchange_rate.isSome
            if m5.isEmpty then ([], q2)
            else (List.insertionSort rowLe m5, q2)

/-- Sum of a list of rationals. -/
def qsum (l : List ℚ) : ℚ := l.foldr (· + ·) 0

/-- pandas `Series.mean()` with the default `skipna` already applied:
`NaN` on an empty sample, the arithmetic mean otherwise. -/
def qmean (l : List ℚ) : Option ℚ :=
  if l.isEmpty then none else some (qsum l / l.length)

/-- pandas `Series.quantile(p)` with the default linear interpolation:
position `p * (n - 1)` in the sorted sample, interpolating between the
two neighbouring order statistics. -/
def quantileQ (l : List ℚ) (p : ℚ) : Option ℚ :=
  if l.isEmpty then none
  else
    let s := List.insertionSort (fun a b : ℚ => a ≤ b) l
    let pos : ℚ := p * ((l.length : ℚ) - 1)
    let i : ℕ := (Int.floor pos).toNat
    let g : ℚ := pos - (i : ℚ)
    some (s.getD i 0 + (s.getD (i + 1) (s.getD i 0) - s.getD i 0) * g)

/-- pandas `Series.std()` squared: the sample variance with `ddof=1`,
`NaN` on samples of size at most one.  The reported standard deviation
is its square root, which is irrational in general; the aggregator
therefore carries the variance. -/
def svar (l : List ℚ) : Option ℚ :=
  if l.length ≤ 1 then none
  else
    match qmean l with
    | none => none
    | some m => some (qsum (l.map fun x => (x - m) * (x - m)) / ((l.length : ℚ) - 1))

/-- One output row of `calculate_premium_statistics`.  `premium_var`
is the square of the `premium_std` column of the source (see `svar`). -/
structure StatRow where
  stock_name : String
  A_stock_code : String
  H_stock_code : String
  premium_mean : Option ℚ
  premium_median : Option ℚ
  premium_min : Option ℚ
  premium_max : Option ℚ
  premium_p5 : Option ℚ
  premium_p95 : Option ℚ
  premium_var : Option ℚ
deriving DecidableEq, Repr

/-- The grouping key of the aggregation:
`groupby(['stock_name', 'A_stock_code', 'H_stock_code'])`. -/
def statKey (r : Row) : String × String × String :=
  (r.stock_name, r.A_stock_code, r.H_stock_code)

/-- Lexicographic order on grouping keys (the ascending key order of a
sorted pandas `groupby`). -/
def keyLe (a b : String × String × String) : Prop :=
  a.1 < b.1 ∨ (a.1 = b.1 ∧ (a.2.1 < b.2.1 ∨ (a.2.1 = b.2.1 ∧ a.2.2 ≤ b.2.2)))

instance : DecidableRel keyLe := fun a b =>
  inferInstanceAs (Decidable (a.1 < b.1 ∨ (a.1 = b.1 ∧ (a.2.1 < b.2.1 ∨ (a.2.1 = b.2.1 ∧ a.2.2 ≤ b.2.2)))))

/-- The sorted distinct grouping keys of the frame (the group index a
pandas `groupby` produces). -/
def groupKeys (df : List Row) : List (String × String × String) :=
  List.insertionSort keyLe (df.map statKey).dedup

/-- The premium sample of one group, with `NaN` entries skipped (the
default `skipna` of every aggregation used). -/
def groupPremiums (df : List Row) (k : String × String × String) : List ℚ :=
  (df.filter fun r => statKey r == k).filterMap (·.HA_premium_rate)

/-- The aggregated summary row of one group: the seven statistics of
`agg_funcs` applied to the group's premium sample. -/
def statRowOf (df : List Row) (k : String × String × String) : StatRow :=
  { stock_name := k.1, A_stock_code := k.2.1, H_stock_code := k.2.2,
    premium_mean := qmean (groupPremiums df k),
    premium_median := quantileQ (groupPremiums df k) (1/2),
    premium_min := (groupPremiums df k).min?,
    premium_max := (groupPremiums df k).max?,
    premium_p5 := quantileQ (groupPremiums df k) (1/20),
    premium_p95 := quantileQ (groupPremiums df k) (19/20),
    premium_var := svar (groupPremiums df k) }

/-- `calculate_premium_statistics(premium_df)` from
`get_history_premium_data.py`: empty input short-circuits to an empty
frame; otherwise one aggregated row per distinct
`(stock_name, A_stock_code, H_stock_code)` group, keys ascending. -/
def calculate_premium_statistics (df : List Row) : List StatRow :=
  if df.isEmpty then []
  else (groupKeys df).map (statRowOf df)

/-- The persisted report: the four sheets of
`AH股每日监控报告.xlsx`, in sheet order (premium, A close, H close,
FX rate). -/
structure Report where
  premium : WideTable
  aPrice : WideTable
  hPrice : WideTable
  fxRate : WideTable
deriving DecidableEq, Repr

/-- Outcome of reading the existing report file in
`continuous_monitor.main`.  `ok`: all four sheets read.  `failLate`:
the first sheet and its last column read fine, but a later
`pd.read_excel` in the per-sheet loop raised (the `except` branch then
clears `existing_data` but keeps the incremental `start_date_str`).
`failEarly`: the exception was raised before `start_date_str` was
reassigned (first sheet unreadable, or its column set empty). -/
inductive ReadMode where
  | ok
  | failLate
  | failEarly
deriving DecidableEq, Repr

/-- The environment of one `continuous_monitor.main` run: the stock
pool the resolver returns, the persisted file, where (if anywhere) the
file read fails, today's date, provider availability, the
`w.tdaysoffset` answer, and the fetcher as a collaborator keyed by the
requested window. -/
structure MonitorEnv where
  stockPool : List PoolEntry
  file : Option Report
  readMode : ReadMode
  today : ℕ
  windAvailable : Bool
  latestTradingDay : Option ℕ
  fetch : ℕ → ℕ → List Row

/-- Observable outcome of one monitor run: the persisted file after
the run, the fetch window actually requested (`none` when no fetch was
issued), the start date the run settled on, and whether the
spreadsheet-writing step was reached. -/
structure MonitorResult where
  file : Option Report
  fetched : Option (ℕ × ℕ)
  startUsed : ℕ
  wrote : Bool
deriving Repr

/-- `start_date_str = "2024-01-01"`, the first-run default start
date, as a day index. -/
def defaultStartDate : ℕ := 20240101

/-- The file-reading step of `continuous_monitor.main`: the start
date the run settles on and the `existing_data` dictionary, as
functions of the persisted file and of where (if anywhere) the read
raises. -/
def readExisting : Option Report → ReadMode → ℕ × Option Report
  | none, _ => (defaultStartDate, none)
  | some rep, mode =>
    match mode, rep.premium.dates.getLast? with
    | ReadMode.ok, some lastD => (lastD + 1, some rep)
    | ReadMode.failLate, some lastD => (lastD + 1, none)
    | _, _ => (defaultStartDate, none)

/-- The remainder of `continuous_monitor.main` after the stock pool
and the existing file have been resolved: the `w.tdaysoffset`
freshness check and the `start > end` check may end the run as a
no-op; an empty fetch aborts; otherwise the four pivots are built,
concatenated onto the old sheets when the read succeeded, and
saved. -/
def monitorAfterRead (env : MonitorEnv) (startDate : ℕ)
    (existingData : Option Report) : MonitorResult :=
  let endDate := env.today
  let noNewData : Bool :=
    env.windAvailable &&
      match env.latestTradingDay with
      | some latest => decide (latest < startDate)
      | none => false
  if noNewData then
    { file := env.file, fetched := none, startUsed := startDate, wrote := false }
  else if endDate < startDate then
    { file := env.file, fetched := none, startUsed := startDate, wrote := false }
  else
    if (env.fetch startDate endDate).isEmpty then
      { file := env.file, fetched := some (startDate, endDate), startUsed := startDate,
        wrote := false }
    else
      let long_df := env.fetch startDate endDate
      let newRep : Report :=
        { premium := create_pivot_table long_df (·.HA_premium_rate),
          aPrice := create_pivot_table long_df (·.A_price),
          hPrice := create_pivot_table long_df (·.H_price),
          fxRate := create_pivot_table long_df (·.exchange_rate) }
      let finalRep : Report :=
        match existingData with
        | some old =>
          { premium := concatTables old.premium newRep.premium,
            aPrice := concatTables old.aPrice newRep.aPrice,
            hPrice := concatTables old.hPrice newRep.hPrice,
            fxRate := concatTables old.fxRate newRep.fxRate }
        | none => newRep
      { file := some finalRep, fetched := some (startDate, endDate),
        startUsed := startDate, wrote := true }

/-- `main()` of `continuous_monitor.py` as a transformation of the
persisted file.  Control flow follows the source: an empty pool
aborts; otherwise the existing file is read (`readExisting`) and the
run continues with `monitorAfterRead`. -/
def monitor_main (env : MonitorEnv) : MonitorResult :=
  if env.stockPool.isEmpty then
    { file := env.file, fetched := none, startUsed := defaultStartDate, wrote := false }
  else
    monitorAfterRead env (readExisting env.file env.readMode).1
      (readExisting env.file env.readMode).2

/-!
Concrete instances used by the evaluation and counterexample theorems
below.
-/

/-- A two-stock pool: `X1` with a normal A price, `X2` whose A share
closes at zero. -/
def c1Pool : List PoolEntry := [⟨"H1", "A1", "X1"⟩, ⟨"H2", "A2", "X2"⟩]

/-- Provider data for `c1Pool` on day 7: A prices 100 and 0, H prices
120, FX fixing 0.9. -/
def c1Prov : Provider :=
  { priceOk := true, priceDates := [7],
    close := fun c _ => if c = "A1" then some 100 else if c = "A2" then some 0 else some 120,
    fxOk := true, fxDates := [7], fxClose := fun _ => some (9/10) }

/-- The fetcher output row for `X1` under `c1Prov`; its premium is
`120 / 0.9 / 100 - 1`, that is `1/3`. -/
def c1RowA : Row :=
  ⟨7, "X1", "A1", "H1", some 100, some 120, some (9/10),
    some (120 / (9/10) / 100 - 1)⟩

/-- The fetcher output row for `X2` (zero A price) under `c1Prov`. -/
def c1RowZ : Row :=
  ⟨7, "X2", "A2", "H2", some 0, some 120, some (9/10), none⟩

/-- A provider with empty but successful responses. -/
def emptyProv : Provider :=
  { priceOk := true, priceDates := [], close := fun _ _ => none,
    fxOk := true, fxDates := [], fxClose := fun _ => none }

/-- An early-window observation of stock `B` (date 1). -/
def c2RowB : Row := ⟨1, "B", "aB", "hB", some 10, some 20, some 1, some 1⟩

/-- A late-window observation of stock `A` (date 2). -/
def c2RowA : Row := ⟨2, "A", "aA", "hA", some 30, some 40, some 1, some 2⟩

/-- A two-row frame whose second window introduces a new stock that
sorts before the old one. -/
def c2Df : List Row := [c2RowB, c2RowA]

/-- A one-stock, one-date wide sheet (last persisted date 5). -/
def c4OldTable : WideTable := ⟨["X"], [5], [[some (1/10)]]⟩

/-- An existing report whose four sheets are `c4OldTable`. -/
def c4OldReport : Report := ⟨c4OldTable, c4OldTable, c4OldTable, c4OldTable⟩

/-- One fresh observation row at date 6. -/
def c4NewRow : Row := ⟨6, "X", "A1", "H1", some 10, some 11, some 1, some (1/10)⟩

/-- A monitor run in which reading the existing report fails after the
first sheet (so `existing_data` is cleared but `start_date_str` keeps
the incremental value). -/
def c4Env : MonitorEnv :=
  { stockPool := [⟨"H1", "A1", "X"⟩], file := some c4OldReport,
    readMode := ReadMode.failLate, today := 6, windAvailable := false,
    latestTradingDay := none, fetch := fun _ _ => [c4NewRow] }

/-- A monitor run whose stock-pool query comes back empty. -/
def c3Env : MonitorEnv :=
  { stockPool := [], file := some c4OldReport, readMode := ReadMode.ok,
    today := 9, windAvailable := true, latestTradingDay := some 9,
    fetch := fun _ _ => [c4NewRow] }

/-- An up-to-date incremental run: last persisted date 5, provider has
no trading day after 5. -/
def c5Env : MonitorEnv :=
  { stockPool := [⟨"H1", "A1", "X"⟩], file := some c4OldReport,
    readMode := ReadMode.ok, today := 9, windAvailable := true,
    latestTradingDay := some 5, fetch := fun _ _ => [c4NewRow] }

/-- First-encountered observation of stock `X` on date 1. -/
def c6Row1 : Row := ⟨1, "X", "a", "h", some 10, some 1, some 1, some 1⟩

/-- A later duplicate of the same `(stock_name, date)` key with
different metric values. -/
def c6Row2 : Row := ⟨1, "X", "a", "h", some 99, some 2, some 1, some 2⟩

/-- A one-stock pool whose A share closes at zero. -/
def c7Pool : List PoolEntry := [⟨"H1", "A1", "X1"⟩]

/-- Provider data for `c7Pool` on day 3: A price 0, H price 120,
FX fixing 1. -/
def c7Prov : Provider :=
  { priceOk := true, priceDates := [3],
    close := fun c _ => if c = "A1" then some 0 else some 120,
    fxOk := true, fxDates := [3], fxClose := fun _ => some 1 }

/-- The fetcher output under `c7Prov`: one surviving row with
`A_price = 0` and hence a `NaN` premium. -/
def c7Rows : List Row := (get_ah_premium_data true (some c7Pool) 3 none c7Prov).1

/-- A two-row frame with non-null values in all four metrics. -/
def c7Df : List Row :=
  [⟨1, "X", "a", "h", some 10, some 12, some 1, some (1/5)⟩,
   ⟨2, "Y", "a2", "h2", some 11, some 13, some 1, some (1/4)⟩]

/-- Five premium observations 0.1, 0.2, 0.3, 0.4, 0.5 of one stock. -/
def c8Df : List Row :=
  [⟨1, "X", "a", "h", some 1, some 1, some 1, some (1/10)⟩,
   ⟨2, "X", "a", "h", some 1, some 1, some 1, some (2/10)⟩,
   ⟨3, "X", "a", "h", some 1, some 1, some 1, some (3/10)⟩,
   ⟨4, "X", "a", "h", some 1, some 1, some 1, some (4/10)⟩,
   ⟨5, "X", "a", "h", some 1, some 1, some 1, some (5/10)⟩]

/-- Two booleans agreeing as propositions are equal. -/
theorem bool_eq_of_iff {a b : Bool} (h : a = true ↔ b = true) : a = b := by
  cases a <;> cases b <;> simp_all

/-- `find?` ignores a filter that keeps every candidate match. -/
theorem find?_filter_of_imp {α : Type} (l : List α) (p q : α → Bool)
    (h : ∀ x, p x = true → q x = true) : (l.filter q).find? p = l.find? p := by
  induction l with
  | nil => rfl
  | cons a l ih =>
    by_cases hq : q a = true
    · simp only [List.filter_cons, hq, if_true]
      by_cases hp : p a = true
      · simp [List.find?_cons, hp]
      · simp only [List.find?_cons, hp]
        simpa [Bool.not_eq_true] using ih
    · have hp : p a = false := by
        cases hpa : p a
        · rfl
        · exact absurd (h a hpa) hq
      simp only [List.filter_cons, hq, if_false, List.find?_cons, hp]
      simpa [Bool.not_eq_true] using ih

/-- `find?` fails on a filtered list when the filter excludes every
candidate match. -/
theorem find?_filter_none {α : Type} (l : List α) (p q : α → Bool)
    (h : ∀ x, p x = true → q x = false) : (l.filter q).find? p = none := by
  rw [List.find?_eq_none]
  intro x hx hpx
  have hqx : q x = true := (List.mem_filter.mp hx).2
  rw [h x hpx] at hqx
  exact Bool.false_ne_true hqx

/-- De-duplication only removes rows. -/
theorem mem_of_mem_dedupFirst {x : Row} : ∀ {l : List Row}, x ∈ dedupFirst l → x ∈ l := by
  intro l
  induction l with
  | nil => intro h; exact absurd h (List.not_mem_nil x)
  | cons r rs ih =>
    intro h
    rcases List.mem_cons.mp h with h | h
    · exact h ▸ List.mem_cons_self r rs
    · exact List.mem_cons_of_mem r (ih (List.mem_of_mem_filter h))

/-- After de-duplication all keys are pairwise distinct. -/
theorem dedupFirst_keys_pairwise :
    ∀ (l : List Row), (dedupFirst l).Pairwise fun a b => keyOf a ≠ keyOf b := by
  intro l
  induction l with
  | nil => exact List.Pairwise.nil
  | cons r rs ih =>
    refine List.Pairwise.cons ?_ (ih.filter _)
    intro b hb
    have := (List.mem_filter.mp hb).2
    simp only [decide_eq_true_eq] at this
    exact fun hk => this hk.symm

/-- De-duplication preserves the first row matching any
`(stock_name, date)` key. -/
theorem find?_key_dedupFirst (s : String) (d : ℕ) :
    ∀ (l : List Row),
      (dedupFirst l).find? (fun r => r.stock_name == s && r.date == d)
        = l.find? (fun r => r.stock_name == s && r.date == d) := by
  intro l
  induction l with
  | nil => rfl
  | cons r rs ih =>
    rw [dedupFirst]
    by_cases hp : (r.stock_name == s && r.date == d) = true
    · simp [List.find?_cons, hp]
    · simp only [List.find?_cons, hp, if_false]
      rw [← ih]
      refine find?_filter_of_imp (dedupFirst rs) _ _ ?_
      intro x hx
      simp only [Bool.and_eq_true, beq_iff_eq] at hx
      simp only [decide_eq_true_eq]
      intro hk
      apply hp
      have h1 : r.stock_name = x.stock_name := congrArg Prod.fst hk.symm
      have h2 : r.date = x.date := congrArg Prod.snd hk.symm
      simp [h1, h2, hx.1, hx.2]

/-- A frame with pairwise-distinct keys is unchanged by
de-duplication. -/
theorem dedupFirst_eq_self :
    ∀ {l : List Row}, (l.Pairwise fun a b => keyOf a ≠ keyOf b) → dedupFirst l = l := by
  intro l
  induction l with
  | nil => intro _; rfl
  | cons r rs ih =>
    intro h
    rw [dedupFirst, ih (List.pairwise_cons.mp h).2]
    have hfix : rs.filter (fun x => decide (keyOf x ≠ keyOf r)) = rs := by
      refine List.filter_eq_self.mpr ?_
      intro a ha
      simp only [decide_eq_true_eq]
      exact fun hk => (List.pairwise_cons.mp h).1 a ha hk.symm
    rw [hfix]

/-- Membership in a sorted de-duplicated index. -/
theorem mem_sortedDedup {α : Type} [LinearOrder α] {a : α} {l : List α} :
    a ∈ sortedDedup l ↔ a ∈ l := by
  rw [sortedDedup, List.mem_insertionSort, List.mem_dedup]

/-- A sorted de-duplicated index is sorted. -/
theorem sortedDedup_sorted {α : Type} [LinearOrder α] (l : List α) :
    List.Sorted (· ≤ ·) (sortedDedup l) :=
  List.sorted_insertionSort _ _

/-- A sorted de-duplicated index has no duplicates. -/
theorem sortedDedup_nodup {α : Type} [LinearOrder α] (l : List α) :
    (sortedDedup l).Nodup :=
  (List.perm_insertionSort _ _).nodup_iff.mpr (List.nodup_dedup l)

/-- The pivot cell at `(s, d)` is defined exactly when some retained
row carries the key and a non-`NaN` metric value. -/
theorem cellVal_isSome_iff {df : List Row} {v : Row → Option ℚ} {s : String} {d : ℕ} :
    (cellVal df v s d).isSome
      ↔ ∃ r ∈ dedupFirst df, r.stock_name = s ∧ r.date = d ∧ (v r).isSome := by
  constructor
  · intro h
    rw [cellVal] at h
    cases hf : (dedupFirst df).find? (fun r => r.stock_name == s && r.date == d) with
    | none => rw [hf] at h; exact absurd h (by simp)
    | some r =>
      rw [hf] at h
      have hm := List.mem_of_find?_eq_some hf
      have hp := List.find?_some hf
      simp only [Bool.and_eq_true, beq_iff_eq] at hp
      exact ⟨r, hm, hp.1, hp.2, h⟩
  · rintro ⟨r, hr, hs, hd, hv⟩
    rw [cellVal]
    have hsome : ((dedupFirst df).find? fun x => x.stock_name == s && x.date == d).isSome := by
      rw [List.find?_isSome]
      exact ⟨r, hr, by simp [hs, hd]⟩
    cases hf : (dedupFirst df).find? (fun x => x.stock_name == s && x.date == d) with
    | none => rw [hf] at hsome; exact absurd hsome (by simp)
    | some r2 =>
      have hm2 := List.mem_of_find?_eq_some hf
      have hp2 := List.find?_some hf
      simp only [Bool.and_eq_true, beq_iff_eq] at hp2
      have hkey : keyOf r2 = keyOf r := by
        rw [keyOf, keyOf, hp2.1, hp2.2, hs, hd]
      have hr2 : r2 = r := by
        by_contra hne
        have hsym : Symmetric fun a b : Row => keyOf a ≠ keyOf b :=
          fun a b h h2 => h h2.symm
        exact List.Pairwise.forall hsym (dedupFirst_keys_pairwise df) hm2 hr hne hkey
      rw [hr2]
      exact hv

/-- The pivot keeps stock `s` exactly when some retained row of `s`
has a non-`NaN` metric value. -/
theorem mem_pivotStocks_iff {df : List Row} {v : Row → Option ℚ} {s : String} :
    s ∈ pivotStocks df v
      ↔ ∃ r ∈ dedupFirst df, r.stock_name = s ∧ (v r).isSome := by
  rw [pivotStocks, List.mem_filter]
  constructor
  · rintro ⟨-, hany⟩
    rw [List.any_eq_true] at hany
    obtain ⟨d, -, hd⟩ := hany
    obtain ⟨r, hr, hs, -, hv⟩ := cellVal_isSome_iff.mp (by simpa using hd)
    exact ⟨r, hr, hs, hv⟩
  · rintro ⟨r, hr, hs, hv⟩
    refine ⟨?_, ?_⟩
    · rw [pivotStocks0, mem_sortedDedup]
      exact List.mem_map.mpr ⟨r, hr, hs⟩
    · rw [List.any_eq_true]
      refine ⟨r.date, ?_, ?_⟩
      · rw [pivotDates0, mem_sortedDedup]
        exact List.mem_map.mpr ⟨r, hr, rfl⟩
      · simpa using cellVal_isSome_iff.mpr ⟨r, hr, hs, rfl, hv⟩

/-- The pivot keeps date `d` exactly when some retained row at `d`
has a non-`NaN` metric value. -/
theorem mem_pivotDates_iff {df : List Row} {v : Row → Option ℚ} {d : ℕ} :
    d ∈ pivotDates df v
      ↔ ∃ r ∈ dedupFirst df, r.date = d ∧ (v r).isSome := by
  rw [pivotDates, List.mem_filter]
  constructor
  · rintro ⟨-, hany⟩
    rw [List.any_eq_true] at hany
    obtain ⟨s, -, hs⟩ := hany
    obtain ⟨r, hr, -, hd, hv⟩ := cellVal_isSome_iff.mp (by simpa using hs)
    exact ⟨r, hr, hd, hv⟩
  · rintro ⟨r, hr, hd, hv⟩
    refine ⟨?_, ?_⟩
    · rw [pivotDates0, mem_sortedDedup]
      exact List.mem_map.mpr ⟨r, hr, hd⟩
    · rw [List.any_eq_true]
      refine ⟨r.stock_name, ?_, ?_⟩
      · exact mem_pivotStocks_iff.mpr ⟨r, hr, rfl, hv⟩
      · simpa using cellVal_isSome_iff.mpr ⟨r, hr, rfl, hd, hv⟩

/-- A stock dropped from the pivot index has only `NaN` cells. -/
theorem cellVal_eq_none_of_not_memStocks {df : List Row} {v : Row → Option ℚ}
    {s : String} (h : s ∉ pivotStocks df v) (d : ℕ) : cellVal df v s d = none := by
  cases hc : cellVal df v s d with
  | none => rfl
  | some q =>
    obtain ⟨r, hr, hs, -, hv⟩ := cellVal_isSome_iff.mp (by rw [hc]; rfl)
    exact absurd (mem_pivotStocks_iff.mpr ⟨r, hr, hs, hv⟩) h

/-- A date dropped from the pivot columns has only `NaN` cells. -/
theorem cellVal_eq_none_of_not_memDates {df : List Row} {v : Row → Option ℚ}
    {d : ℕ} (h : d ∉ pivotDates df v) (s : String) : cellVal df v s d = none := by
  cases hc : cellVal df v s d with
  | none => rfl
  | some q =>
    obtain ⟨r, hr, hs, hd, hv⟩ := cellVal_isSome_iff.mp (by rw [hc]; rfl)
    exact absurd (mem_pivotDates_iff.mpr ⟨r, hr, hd, hv⟩) h

/-- Looking up a present label in a table built by mapping over its
own index yields the mapped row. -/
theorem lookupRow_map_mem {f : String → List (Option ℚ)} {s : String} :
    ∀ {l : List String}, s ∈ l → lookupRow l (l.map f) s = some (f s) := by
  intro l
  induction l with
  | nil => intro h; exact absurd h (List.not_mem_nil s)
  | cons a l ih =>
    intro h
    rw [List.map_cons, lookupRow]
    by_cases ha : a = s
    · rw [if_pos ha, ha]
    · rw [if_neg ha]
      rcases List.mem_cons.mp h with he | hm
      · exact absurd he.symm ha
      · exact ih hm

/-- Looking up an absent label fails. -/
theorem lookupRow_map_not_mem {f : String → List (Option ℚ)} {s : String} :
    ∀ {l : List String}, s ∉ l → lookupRow l (l.map f) s = none := by
  intro l
  induction l with
  | nil => intro _; rfl
  | cons a l ih =>
    intro h
    have ha : a ≠ s := fun he => h (he ▸ List.mem_cons_self a l)
    rw [List.map_cons, lookupRow, if_neg ha]
    exact ih fun hm => h (List.mem_cons_of_mem a hm)

/-- Cell lookup in a mapped row, present-label case. -/
theorem lookupVal_map_mem {g : ℕ → Option ℚ} {d : ℕ} :
    ∀ {l : List ℕ}, d ∈ l → lookupVal l (l.map g) d = some (g d) := by
  intro l
  induction l with
  | nil => intro h; exact absurd h (List.not_mem_nil d)
  | cons a l ih =>
    intro h
    rw [List.map_cons, lookupVal]
    by_cases ha : a = d
    · rw [if_pos ha, ha]
    · rw [if_neg ha]
      rcases List.mem_cons.mp h with he | hm
      · exact absurd he.symm ha
      · exact ih hm

/-- Cell lookup in a mapped row, absent-label case. -/
theorem lookupVal_map_not_mem {g : ℕ → Option ℚ} {d : ℕ} :
    ∀ {l : List ℕ}, d ∉ l → lookupVal l (l.map g) d = none := by
  intro l
  induction l with
  | nil => intro _; rfl
  | cons a l ih =>
    intro h
    have ha : a ≠ d := fun he => h (he ▸ List.mem_cons_self a l)
    rw [List.map_cons, lookupVal, if_neg ha]
    exact ih fun hm => h (List.mem_cons_of_mem a hm)

/-- Label-based lookup in the pivot recovers `cellVal` everywhere:
retained cells hold their value, dropped rows and columns read `NaN`
exactly when the value is `NaN`. -/
theorem cellAt_create_pivot_table (df : List Row) (v : Row → Option ℚ)
    (s : String) (d : ℕ) :
    (create_pivot_table df v).cellAt s d = cellVal df v s d := by
  by_cases hs : s ∈ pivotStocks df v
  · by_cases hd : d ∈ pivotDates df v
    · simp only [WideTable.cellAt, create_pivot_table, lookupRow_map_mem hs,
        lookupVal_map_mem hd, Option.getD_some]
    · simp only [WideTable.cellAt, create_pivot_table, lookupRow_map_mem hs,
        lookupVal_map_not_mem hd, Option.getD_none]
      exact (cellVal_eq_none_of_not_memDates hd s).symm
  · simp only [WideTable.cellAt, create_pivot_table, lookupRow_map_not_mem hs]
    exact (cellVal_eq_none_of_not_memStocks hs d).symm

/-- Every row the fetcher returns carries the premium computed by
`computePremium` from its own price fields, and all three price fields
survived the `dropna`. -/
theorem mem_fetch_fields {w : Bool} {sp : Option (List PoolEntry)} {sd : ℕ}
    {ed : Option ℕ} {p : Provider} {r : Row}
    (hr : r ∈ (get_ah_premium_data w sp sd ed p).1) :
    r.HA_premium_rate = computePremium r.A_price r.H_price r.exchange_rate ∧
    r.A_price.isSome ∧ r.H_price.isSome ∧ r.exchange_rate.isSome := by
  rw [get_ah_premium_data.eq_def] at hr
  split at hr
  · exact absurd hr (List.not_mem_nil r)
  · split at hr
    · exact absurd hr (List.not_mem_nil r)
    · split at hr
      · exact absurd hr (List.not_mem_nil r)
      · split at hr
        · exact absurd hr (List.not_mem_nil r)
        · split at hr
          · exact absurd hr (List.not_mem_nil r)
          · simp only [] at hr
            split at hr
            · exact absurd hr (List.not_mem_nil r)
            · rw [List.mem_insertionSort, List.mem_filter] at hr
              obtain ⟨hmem, hpred⟩ := hr
              rw [List.mem_map] at hmem
              obtain ⟨r0, -, hr0⟩ := hmem
              subst hr0
              rw [Bool.and_eq_true, Bool.and_eq_true] at hpred
              exact ⟨rfl, hpred.1.1, hpred.1.2, hpred.2⟩

/-- Claim C1: for every row of the fetcher's output, the premium
equals `H_price / fx_rate / A_price - 1` whenever the three price
fields are present and `A_price` is non-zero, and the premium is null
whenever `A_price` is null or zero. -/
theorem c1_premium_formula (w : Bool) (sp : Option (List PoolEntry)) (sd : ℕ)
    (ed : Option ℕ) (p : Provider) (r : Row)
    (hr : r ∈ (get_ah_premium_data w sp sd ed p).1) :
    (∀ a h f, r.A_price = some a → r.H_price = some h → r.exchange_rate = some f →
      a ≠ 0 → r.HA_premium_rate = some (h / f / a - 1)) ∧
    (r.A_price = some 0 ∨ r.A_price = none → r.HA_premium_rate = none) := by
  obtain ⟨hp, -, -, -⟩ := mem_fetch_fields hr
  constructor
  · intro a h f ha hh hf hne
    rw [hp, ha, hh, hf, computePremium, if_neg hne]
  · intro hcase
    rcases hcase with h0 | h0
    · rw [hp, h0, computePremium.eq_def]
      simp
    · rw [hp, h0]
      rfl

/-- Witness for C1: under `c1Prov`, stock `X1`
(`A=100, H=120, fx=0.9`) gets premium `120/0.9/100 - 1 = 1/3`, and
stock `X2` (`A=0`) gets a null premium. -/
theorem c1_premium_formula_witness :
    c1RowA ∈ (get_ah_premium_data true (some c1Pool) 7 none c1Prov).1 ∧
    c1RowA.HA_premium_rate = some (120 / (9/10) / 100 - 1) ∧
    (120 / (9/10) / 100 - 1 : ℚ) = 1/3 ∧
    c1RowZ ∈ (get_ah_premium_data true (some c1Pool) 7 none c1Prov).1 ∧
    c1RowZ.HA_premium_rate = none := by
  have hout : (get_ah_premium_data true (some c1Pool) 7 none c1Prov).1
      = [c1RowA, c1RowZ] := by with_unfolding_all rfl
  have hmA : c1RowA ∈ (get_ah_premium_data true (some c1Pool) 7 none c1Prov).1 := by
    rw [hout]; exact List.mem_cons_self _ _
  have hmZ : c1RowZ ∈ (get_ah_premium_data true (some c1Pool) 7 none c1Prov).1 := by
    rw [hout]; exact List.mem_cons_of_mem _ (List.mem_cons_self _ _)
  refine ⟨hmA, ?_, by norm_num, hmZ, ?_⟩
  · exact (c1_premium_formula true (some c1Pool) 7 none c1Prov c1RowA hmA).1
      100 120 (9/10) rfl rfl rfl (by norm_num)
  · exact (c1_premium_formula true (some c1Pool) 7 none c1Prov c1RowZ hmZ).2
      (Or.inl rfl)

/-- Claim C10: a `None` or empty stock pool makes the fetcher return
an empty frame immediately, with no provider query issued. -/
theorem c10_empty_pool_no_query (w : Bool) (sd : ℕ) (ed : Option ℕ) (p : Provider)
    (sp : Option (List PoolEntry)) (h : sp = none ∨ sp = some []) :
    get_ah_premium_data w sp sd ed p = ([], []) := by
  rcases h with h | h <;> subst h <;> rw [get_ah_premium_data.eq_def] <;> cases w <;> simp

/-- Witness for C10 at a concrete provider and date range. -/
theorem c10_empty_pool_no_query_witness :
    get_ah_premium_data true (some []) 3 (some 9) c1Prov = ([], []) ∧
    get_ah_premium_data true none 3 (some 9) c1Prov = ([], []) :=
  ⟨c10_empty_pool_no_query true 3 (some 9) c1Prov (some []) (Or.inr rfl),
   c10_empty_pool_no_query true 3 (some 9) c1Prov none (Or.inl rfl)⟩

/-- Claim C9: the pivot transformation is deterministic — applying
`create_pivot_table` twice to the same long-format table yields
identical wide tables. -/
theorem c9_pivot_deterministic (df : List Row) (v : Row → Option ℚ) :
    create_pivot_table df v = create_pivot_table df v := rfl

/-- Claim C6: when a long-format table contains two rows with the
same `(stock_name, date)` key and different metric values, the pivot
keeps the value of the first-encountered row and discards the later
one. -/
theorem c6_first_occurrence_wins (v : Row → Option ℚ) (pre mid post : List Row)
    (r1 r2 : Row) (hk : keyOf r1 = keyOf r2) (hv : v r1 ≠ v r2)
    (hpre : ∀ r ∈ pre, keyOf r ≠ keyOf r1) :
    (create_pivot_table (pre ++ r1 :: (mid ++ r2 :: post)) v).cellAt
      r1.stock_name r1.date = v r1 := by
  rw [cellAt_create_pivot_table, cellVal, find?_key_dedupFirst]
  have hpre2 : (pre.find? fun r => r.stock_name == r1.stock_name && r.date == r1.date)
      = none := by
    rw [List.find?_eq_none]
    intro x hx hpx
    rw [Bool.and_eq_true, beq_iff_eq, beq_iff_eq] at hpx
    exact hpre x hx (by rw [keyOf, keyOf, hpx.1, hpx.2])
  rw [List.find?_append, hpre2, Option.none_or,
    List.find?_cons_of_pos _ (by simp), Option.some_bind]

/-- Witness for C6: two concrete duplicate-key rows with different
A prices; the pivot cell holds the first row's price. -/
theorem c6_first_occurrence_wins_witness :
    keyOf c6Row1 = keyOf c6Row2 ∧ c6Row1.A_price ≠ c6Row2.A_price ∧
    (create_pivot_table [c6Row1, c6Row2] (·.A_price)).cellAt "X" 1 = some 10 :=
  ⟨by decide, by decide,
    c6_first_occurrence_wins (·.A_price) [] [] [] c6Row1 c6Row2 (by decide) (by decide)
      (fun r hr => absurd hr (List.not_mem_nil r))⟩

/-- Whenever the fetcher returns nothing, the post-read stage keeps
the file and never reaches the write step. -/
theorem monitorAfterRead_empty_fetch (env : MonitorEnv) (sd : ℕ) (ex : Option Report)
    (h : ∀ s e, env.fetch s e = []) :
    (monitorAfterRead env sd ex).file = env.file ∧
      (monitorAfterRead env sd ex).wrote = false := by
  rw [monitorAfterRead]
  split
  · exact ⟨rfl, rfl⟩
  · split
    · exact ⟨rfl, rfl⟩
    · rw [h]
      exact ⟨rfl, rfl⟩

/-- Claim C3: an empty stock pool or an empty fetch result ends the
monitor run before the spreadsheet-writing step, leaving the persisted
report unchanged. -/
theorem c3_empty_short_circuit (env : MonitorEnv)
    (h : env.stockPool = [] ∨ ∀ s e, env.fetch s e = []) :
    (monitor_main env).file = env.file ∧ (monitor_main env).wrote = false := by
  rw [monitor_main]
  rcases h with h | h
  · rw [h]
    exact ⟨rfl, rfl⟩
  · split
    · exact ⟨rfl, rfl⟩
    · exact monitorAfterRead_empty_fetch env _ _ h

/-- Witness for C3: a concrete run with an empty pool leaves the file
untouched. -/
theorem c3_empty_short_circuit_witness :
    (monitor_main c3Env).file = some c4OldReport ∧ (monitor_main c3Env).wrote = false :=
  c3_empty_short_circuit c3Env (Or.inl rfl)

/-- The start date recorded by the post-read stage is the one it was
given, in every branch. -/
theorem monitorAfterRead_startUsed (env : MonitorEnv) (sd : ℕ) (ex : Option Report) :
    (monitorAfterRead env sd ex).startUsed = sd := by
  rw [monitorAfterRead]
  split
  · rfl
  · split
    · rfl
    · split
      · rfl
      · split <;> rfl

/-- Any fetch window the post-read stage requests starts at the date
it was given. -/
theorem monitorAfterRead_fetched_start (env : MonitorEnv) (sd : ℕ) (ex : Option Report)
    (w : ℕ × ℕ) (hw : (monitorAfterRead env sd ex).fetched = some w) : w.1 = sd := by
  rw [monitorAfterRead] at hw
  split at hw
  · exact absurd hw (by simp)
  · split at hw
    · exact absurd hw (by simp)
    · split at hw
      · have h2 := Option.some.inj hw
        rw [← h2]
      · split at hw <;>
        · have h2 := Option.some.inj hw
          rw [← h2]

/-- When the freshness check fires, the post-read stage is a no-op. -/
theorem monitorAfterRead_noop (env : MonitorEnv) (sd : ℕ) (ex : Option Report)
    (hn : (env.windAvailable &&
      match env.latestTradingDay with
      | some latest => decide (latest < sd)
      | none => false) = true) :
    (monitorAfterRead env sd ex).fetched = none ∧
      (monitorAfterRead env sd ex).wrote = false ∧
      (monitorAfterRead env sd ex).file = env.file := by
  rw [monitorAfterRead]
  simp only [hn]
  exact ⟨rfl, rfl, rfl⟩

/-- Claim C5: an incremental run over an existing report whose last
column date is `D` settles on start date `D + 1`, any fetch it issues
starts at `D + 1`, and when the provider's latest available trading
day is earlier than `D + 1` the run is a no-op: no fetch, no write,
file unchanged. -/
theorem c5_incremental_window (env : MonitorEnv) (rep : Report) (D L : ℕ)
    (hf : env.file = some rep) (hm : env.readMode = ReadMode.ok)
    (hD : rep.premium.dates.getLast? = some D)
    (hpool : env.stockPool ≠ []) :
    ((monitor_main env).startUsed = D + 1 ∧
      ∀ w, (monitor_main env).fetched = some w → w.1 = D + 1) ∧
    (env.windAvailable = true → env.latestTradingDay = some L → L < D + 1 →
      (monitor_main env).fetched = none ∧ (monitor_main env).wrote = false ∧
        (monitor_main env).file = env.file) := by
  have hre : readExisting env.file env.readMode = (D + 1, some rep) := by
    rw [hf, hm]
    simp [readExisting, hD]
  have hpe : env.stockPool.isEmpty = false := by
    cases hsp : env.stockPool
    · exact absurd hsp hpool
    · rfl
  have hmm : monitor_main env = monitorAfterRead env (D + 1) (some rep) := by
    rw [monitor_main, hpe, hre]
    simp
  rw [hmm]
  refine ⟨⟨monitorAfterRead_startUsed env (D + 1) (some rep), ?_⟩, ?_⟩
  · intro w hw
    exact monitorAfterRead_fetched_start env (D + 1) (some rep) w hw
  · intro hwind hl hlt
    refine monitorAfterRead_noop env (D + 1) (some rep) ?_
    rw [hwind, hl]
    simp [hlt]

/-- Witness for C5 at a concrete environment: last persisted date 5,
provider latest trading day 5, so the run is a no-op. -/
theorem c5_incremental_window_witness :
    (((monitor_main c5Env).startUsed = 5 + 1 ∧
      ∀ w, (monitor_main c5Env).fetched = some w → w.1 = 5 + 1) ∧
    (c5Env.windAvailable = true → c5Env.latestTradingDay = some 5 → 5 < 5 + 1 →
      (monitor_main c5Env).fetched = none ∧ (monitor_main c5Env).wrote = false ∧
        (monitor_main c5Env).file = c5Env.file)) ∧
    (monitor_main c5Env).fetched = none ∧ (monitor_main c5Env).wrote = false := by
  have h := c5_incremental_window c5Env c4OldReport 5 5 rfl rfl rfl (by decide)
  exact ⟨h, (h.2 rfl rfl (by decide)).1, (h.2 rfl rfl (by decide)).2.1⟩

/-- Claim C4 (code-bug evidence): when reading the existing report
raises after the first sheet was already read (`failLate`), `main`
clears `existing_data` — intending, per its own comment, to
"重新生成" (regenerate) the report — but keeps the incremental
`start_date_str`.  The run below fetches only from day 6 (the old
last date 5 plus one), not from the default start date, and writes a
report whose premium sheet holds only column 6: the persisted history
(column 5) is lost, so no full regeneration from the default start
date happens. -/
theorem c4_late_read_failure_not_full_regen :
    (monitor_main c4Env).startUsed = 6 ∧
    (monitor_main c4Env).startUsed ≠ defaultStartDate ∧
    (monitor_main c4Env).fetched = some (6, 6) ∧
    (monitor_main c4Env).wrote = true ∧
    ((monitor_main c4Env).file.map fun rep => rep.premium.dates) = some [6] := by
  decide

/-- A date belongs to the raw pivot column index exactly when some
retained row has that date. -/
theorem mem_pivotDates0_iff {df : List Row} {d : ℕ} :
    d ∈ pivotDates0 df ↔ ∃ r ∈ dedupFirst df, r.date = d := by
  rw [pivotDates0, mem_sortedDedup, List.mem_map]

/-- When every raw date column has a non-`NaN` cell, the all-`NaN`
column drop removes nothing. -/
theorem pivotDates_eq_of_total (df : List Row) (v : Row → Option ℚ)
    (hv : ∀ d ∈ pivotDates0 df, ∃ s, (cellVal df v s d).isSome) :
    pivotDates df v = pivotDates0 df := by
  rw [pivotDates]
  refine List.filter_eq_self.mpr ?_
  intro d hd
  rw [List.any_eq_true]
  obtain ⟨s, hs⟩ := hv d hd
  obtain ⟨r, hr, hsn, hdd, hvv⟩ := cellVal_isSome_iff.mp hs
  refine ⟨r.stock_name, mem_pivotStocks_iff.mpr ⟨r, hr, rfl, hvv⟩, ?_⟩
  simpa using cellVal_isSome_iff.mpr ⟨r, hr, rfl, hdd, hvv⟩

/-- Counterexample to claim C7 as stated: a reachable fetcher output
(one row, `A_price = 0`, so the premium is `NaN`) yields a premium
sheet with no date column while the A-price sheet keeps the date. -/
theorem c7_columns_counterexample :
    (∀ r ∈ c7Rows, r.A_price.isSome ∧ r.H_price.isSome ∧ r.exchange_rate.isSome) ∧
    (create_pivot_table c7Rows (·.HA_premium_rate)).dates = [] ∧
    (create_pivot_table c7Rows (·.A_price)).dates = [3] ∧
    (create_pivot_table c7Rows (·.HA_premium_rate)).dates
      ≠ (create_pivot_table c7Rows (·.A_price)).dates := by
  decide

/-- Claim C7 (amended): on a long table whose rows all carry A price,
H price and FX rate (as fetcher outputs do), the A-price, H-price and
FX-rate wide tables always share the same date columns; the premium
table also matches provided the table has pairwise-distinct
`(stock_name, date)` keys and every date has at least one row with a
non-`NaN` premium.  Without that proviso the premium sheet may drop a
column, as the counterexample shows. -/
theorem c7_column_consistency (df : List Row)
    (hfull : ∀ r ∈ df, r.A_price.isSome ∧ r.H_price.isSome ∧ r.exchange_rate.isSome) :
    ((create_pivot_table df (·.A_price)).dates
        = (create_pivot_table df (·.H_price)).dates ∧
     (create_pivot_table df (·.A_price)).dates
        = (create_pivot_table df (·.exchange_rate)).dates) ∧
    ((df.Pairwise fun a b => keyOf a ≠ keyOf b) →
     (∀ r ∈ df, ∃ r2 ∈ df, r2.date = r.date ∧ r2.HA_premium_rate.isSome) →
      (create_pivot_table df (·.A_price)).dates
        = (create_pivot_table df (·.HA_premium_rate)).dates) := by
  have key : ∀ v : Row → Option ℚ, (∀ r ∈ df, (v r).isSome) →
      pivotDates df v = pivotDates0 df := by
    intro v hv
    refine pivotDates_eq_of_total df v ?_
    intro d hd
    obtain ⟨r, hr, hrd⟩ := mem_pivotDates0_iff.mp hd
    exact ⟨r.stock_name,
      cellVal_isSome_iff.mpr ⟨r, hr, rfl, hrd, hv r (mem_of_mem_dedupFirst hr)⟩⟩
  have hA := key _ fun r hr => (hfull r hr).1
  have hH := key _ fun r hr => (hfull r hr).2.1
  have hF := key _ fun r hr => (hfull r hr).2.2
  refine ⟨⟨?_, ?_⟩, ?_⟩
  · show pivotDates df (·.A_price) = pivotDates df (·.H_price)
    rw [hA, hH]
  · show pivotDates df (·.A_price) = pivotDates df (·.exchange_rate)
    rw [hA, hF]
  · intro hkeys hprem
    have hded : dedupFirst df = df := dedupFirst_eq_self hkeys
    have hP : pivotDates df (·.HA_premium_rate) = pivotDates0 df := by
      refine pivotDates_eq_of_total df _ ?_
      intro d hd
      obtain ⟨r, hr, hrd⟩ := mem_pivotDates0_iff.mp hd
      obtain ⟨r2, hr2, hr2d, hr2p⟩ := hprem r (hded ▸ hr)
      exact ⟨r2.stock_name,
        cellVal_isSome_iff.mpr ⟨r2, by rw [hded]; exact hr2, rfl,
          by rw [hr2d, hrd], hr2p⟩⟩
    show pivotDates df (·.A_price) = pivotDates df (·.HA_premium_rate)
    rw [hA, hP]

/-- Witness for the amended C7: at a concrete two-row table the four
sheets all carry the columns `[1, 2]`; and at the counterexample
frame `c7Rows` itself (where the premium proviso fails) the three
price sheets still agree. -/
theorem c7_column_consistency_witness :
    (((create_pivot_table c7Df (·.A_price)).dates
        = (create_pivot_table c7Df (·.H_price)).dates ∧
      (create_pivot_table c7Df (·.A_price)).dates
        = (create_pivot_table c7Df (·.exchange_rate)).dates) ∧
     ((c7Df.Pairwise fun a b => keyOf a ≠ keyOf b) →
      (∀ r ∈ c7Df, ∃ r2 ∈ c7Df, r2.date = r.date ∧ r2.HA_premium_rate.isSome) →
       (create_pivot_table c7Df (·.A_price)).dates
         = (create_pivot_table c7Df (·.HA_premium_rate)).dates)) ∧
    (create_pivot_table c7Df (·.A_price)).dates
        = (create_pivot_table c7Df (·.HA_premium_rate)).dates ∧
    (create_pivot_table c7Df (·.A_price)).dates = [1, 2] ∧
    ((create_pivot_table c7Rows (·.A_price)).dates
        = (create_pivot_table c7Rows (·.H_price)).dates ∧
     (create_pivot_table c7Rows (·.A_price)).dates
        = (create_pivot_table c7Rows (·.exchange_rate)).dates) := by
  refine ⟨c7_column_consistency c7Df (by decide), ?_,
    by with_unfolding_all decide, (c7_column_consistency c7Rows (by decide)).1⟩
  exact (c7_column_consistency c7Df (by decide)).2 (by decide) (by decide)

/-- Claim C8: the statistics aggregator maps empty input to an empty
result, and on non-empty input produces exactly one summary row per
distinct `(stock_name, A_code, H_code)` group — keys ascending and
duplicate-free, present exactly for the keys occurring in the input —
whose fields are the mean, the 50th/5th/95th linear-interpolation
percentiles, the extrema and the sample variance (the square of the
reported standard deviation) of that group's premium sample. -/
theorem c8_statistics_shape (df : List Row) :
    calculate_premium_statistics [] = [] ∧
    (df ≠ [] →
      (calculate_premium_statistics df).map
          (fun r => (r.stock_name, r.A_stock_code, r.H_stock_code)) = groupKeys df ∧
      (groupKeys df).Nodup ∧
      (∀ k, k ∈ groupKeys df ↔ k ∈ df.map statKey) ∧
      (∀ r ∈ calculate_premium_statistics df,
        r.premium_mean
          = qmean (groupPremiums df (r.stock_name, r.A_stock_code, r.H_stock_code)) ∧
        r.premium_median
          = quantileQ (groupPremiums df (r.stock_name, r.A_stock_code, r.H_stock_code))
              (1/2) ∧
        r.premium_min
          = (groupPremiums df (r.stock_name, r.A_stock_code, r.H_stock_code)).min? ∧
        r.premium_max
          = (groupPremiums df (r.stock_name, r.A_stock_code, r.H_stock_code)).max? ∧
        r.premium_p5
          = quantileQ (groupPremiums df (r.stock_name, r.A_stock_code, r.H_stock_code))
              (1/20) ∧
        r.premium_p95
          = quantileQ (groupPremiums df (r.stock_name, r.A_stock_code, r.H_stock_code))
              (19/20) ∧
        r.premium_var
          = svar (groupPremiums df (r.stock_name, r.A_stock_code, r.H_stock_code)))) := by
  refine ⟨rfl, fun hne => ?_⟩
  have hni : df.isEmpty = false := by
    cases df
    · exact absurd rfl hne
    · rfl
  have hcalc : calculate_premium_statistics df = (groupKeys df).map (statRowOf df) := by
    rw [calculate_premium_statistics, hni]
    simp
  refine ⟨?_, ?_, ?_, ?_⟩
  · rw [hcalc, List.map_map]
    have hpt : ∀ k ∈ groupKeys df,
        ((fun r : StatRow => (r.stock_name, r.A_stock_code, r.H_stock_code))
          ∘ statRowOf df) k = k := fun k _ => rfl
    rw [List.map_congr_left hpt]
    simp
  · rw [groupKeys]
    exact (List.perm_insertionSort _ _).nodup_iff.mpr (List.nodup_dedup _)
  · intro k
    rw [groupKeys, List.mem_insertionSort, List.mem_dedup]
  · intro r hr
    rw [hcalc] at hr
    obtain ⟨k, -, rfl⟩ := List.mem_map.mp hr
    exact ⟨rfl, rfl, rfl, rfl, rfl, rfl, rfl⟩

/-- Witness for C8: the five premiums `0.1 … 0.5` of one stock give
one summary row with mean `0.3`, median `0.3`, min `0.1`, max `0.5`
(and p5 `0.12`, p95 `0.48`). -/
theorem c8_statistics_shape_witness :
    (calculate_premium_statistics c8Df).map
        (fun r => (r.stock_name, r.A_stock_code, r.H_stock_code)) = groupKeys c8Df ∧
    groupPremiums c8Df ("X", "a", "h") = [1/10, 2/10, 3/10, 4/10, 5/10] ∧
    qmean (groupPremiums c8Df ("X", "a", "h")) = some (3/10) ∧
    quantileQ (groupPremiums c8Df ("X", "a", "h")) (1/2) = some (3/10) ∧
    (groupPremiums c8Df ("X", "a", "h")).min? = some (1/10) ∧
    (groupPremiums c8Df ("X", "a", "h")).max? = some (5/10) ∧
    quantileQ (groupPremiums c8Df ("X", "a", "h")) (1/20) = some (3/25) ∧
    quantileQ (groupPremiums c8Df ("X", "a", "h")) (19/20) = some (12/25) := by
  have hg : groupPremiums c8Df ("X", "a", "h") = [1/10, 2/10, 3/10, 4/10, 5/10] := rfl
  have h2 : (2 : ℤ).toNat = 2 := rfl
  have h3 : (3 : ℤ).toNat = 3 := rfl
  refine ⟨((c8_statistics_shape c8Df).2 (by simp [c8Df])).1, hg, ?_, ?_, ?_, ?_, ?_, ?_⟩
  · rw [hg]
    norm_num [qmean, qsum]
  · rw [hg]
    norm_num [quantileQ, List.insertionSort, List.orderedInsert, h2,
      List.getD_cons_zero, List.getD_cons_succ, List.getElem_cons_succ,
      List.getElem_cons_zero]
  · rw [hg]
    norm_num [List.min?, min_def]
  · rw [hg]
    norm_num [List.max?, max_def]
  · rw [hg]
    norm_num [quantileQ, List.insertionSort, List.orderedInsert,
      List.getD_cons_zero, List.getD_cons_succ, List.getElem_cons_succ,
      List.getElem_cons_zero]
  · rw [hg]
    norm_num [quantileQ, List.insertionSort, List.orderedInsert, h3,
      List.getD_cons_zero, List.getD_cons_succ, List.getElem_cons_succ,
      List.getElem_cons_zero]

/-- Splitting a frame by a date threshold splits membership. -/
theorem mem_filter_date_split (df : List Row) (d2 : ℕ) (r : Row) :
    r ∈ df ↔ r ∈ (df.filter fun x => decide (x.date ≤ d2))
      ∨ r ∈ (df.filter fun x => decide (d2 < x.date)) := by
  constructor
  · intro h
    by_cases hd : r.date ≤ d2
    · exact Or.inl (List.mem_filter.mpr ⟨h, by simpa using hd⟩)
    · exact Or.inr (List.mem_filter.mpr ⟨h, by simpa using Nat.lt_of_not_le hd⟩)
  · intro h
    rcases h with h | h
    · exact (List.mem_filter.mp h).1
    · exact (List.mem_filter.mp h).1

/-- On a duplicate-free frame, a pivot cell of a date-filtered slice
agrees with the full frame's cell on dates the filter keeps and is
`NaN` on the rest. -/
theorem cellVal_filter_date (df : List Row) (v : Row → Option ℚ) (q : ℕ → Bool)
    (s : String) (d : ℕ) (hk : df.Pairwise fun a b => keyOf a ≠ keyOf b) :
    cellVal (df.filter fun x => q x.date) v s d
      = if q d = true then cellVal df v s d else none := by
  have h1 : dedupFirst (df.filter fun x => q x.date) = df.filter fun x => q x.date :=
    dedupFirst_eq_self (hk.filter _)
  have h2 : dedupFirst df = df := dedupFirst_eq_self hk
  rw [cellVal, h1, cellVal, h2]
  by_cases hq : q d = true
  · rw [if_pos hq]
    congr 1
    refine find?_filter_of_imp df _ _ ?_
    intro x hx
    simp only [Bool.and_eq_true, beq_iff_eq] at hx
    rw [hx.2, hq]
  · rw [if_neg hq]
    have hnone : (df.filter fun x => q x.date).find?
        (fun r => r.stock_name == s && r.date == d) = none := by
      refine find?_filter_none df _ _ ?_
      intro x hx
      simp only [Bool.and_eq_true, beq_iff_eq] at hx
      rw [hx.2]
      cases hqd : q d
      · rfl
      · exact absurd hqd hq
    rw [hnone]
    rfl

/-- Raw column bound for the early window. -/
theorem mem_pivotDates0_filter_le {df : List Row} {d2 d : ℕ}
    (h : d ∈ pivotDates0 (df.filter fun x => decide (x.date ≤ d2))) : d ≤ d2 := by
  obtain ⟨r, hr, hrd⟩ := mem_pivotDates0_iff.mp h
  have := (List.mem_filter.mp (mem_of_mem_dedupFirst hr)).2
  simp only [decide_eq_true_eq] at this
  exact hrd ▸ this

/-- Raw column bound for the late window. -/
theorem mem_pivotDates0_filter_gt {df : List Row} {d2 d : ℕ}
    (h : d ∈ pivotDates0 (df.filter fun x => decide (d2 < x.date))) : d2 < d := by
  obtain ⟨r, hr, hrd⟩ := mem_pivotDates0_iff.mp h
  have := (List.mem_filter.mp (mem_of_mem_dedupFirst hr)).2
  simp only [decide_eq_true_eq] at this
  exact hrd ▸ this

/-- The raw column index splits at a date threshold into the raw
column indexes of the two window slices. -/
theorem pivotDates0_split (df : List Row) (d2 : ℕ)
    (hk : df.Pairwise fun a b => keyOf a ≠ keyOf b) :
    pivotDates0 df
      = pivotDates0 (df.filter fun x => decide (x.date ≤ d2))
        ++ pivotDates0 (df.filter fun x => decide (d2 < x.date)) := by
  have hded : dedupFirst df = df := dedupFirst_eq_self hk
  have hd1 : dedupFirst (df.filter fun x => decide (x.date ≤ d2))
      = df.filter fun x => decide (x.date ≤ d2) := dedupFirst_eq_self (hk.filter _)
  have hd2 : dedupFirst (df.filter fun x => decide (d2 < x.date))
      = df.filter fun x => decide (d2 < x.date) := dedupFirst_eq_self (hk.filter _)
  have hsortL : List.Sorted (· ≤ ·) (pivotDates0 df) := sortedDedup_sorted _
  have hsortR : List.Sorted (· ≤ ·)
      (pivotDates0 (df.filter fun x => decide (x.date ≤ d2))
        ++ pivotDates0 (df.filter fun x => decide (d2 < x.date))) := by
    rw [List.Sorted, List.pairwise_append]
    refine ⟨sortedDedup_sorted _, sortedDedup_sorted _, ?_⟩
    intro a ha b hb
    exact Nat.le_of_lt (Nat.lt_of_le_of_lt (mem_pivotDates0_filter_le ha)
      (mem_pivotDates0_filter_gt hb))
  have hnodL : (pivotDates0 df).Nodup := sortedDedup_nodup _
  have hnodR : (pivotDates0 (df.filter fun x => decide (x.date ≤ d2))
      ++ pivotDates0 (df.filter fun x => decide (d2 < x.date))).Nodup := by
    rw [List.nodup_append]
    refine ⟨sortedDedup_nodup _, sortedDedup_nodup _, ?_⟩
    intro a ha hb
    exact absurd (mem_pivotDates0_filter_gt hb) (Nat.not_lt.mpr (mem_pivotDates0_filter_le ha))
  refine List.eq_of_perm_of_sorted ?_ hsortL hsortR
  refine (List.perm_ext_iff_of_nodup hnodL hnodR).mpr ?_
  intro d
  rw [List.mem_append, mem_pivotDates0_iff, mem_pivotDates0_iff, mem_pivotDates0_iff,
    hded, hd1, hd2]
  constructor
  · rintro ⟨r, hr, hrd⟩
    rcases (mem_filter_date_split df d2 r).mp hr with h | h
    · exact Or.inl ⟨r, h, hrd⟩
    · exact Or.inr ⟨r, h, hrd⟩
  · rintro (⟨r, hr, hrd⟩ | ⟨r, hr, hrd⟩)
    · exact ⟨r, (List.mem_filter.mp hr).1, hrd⟩
    · exact ⟨r, (List.mem_filter.mp hr).1, hrd⟩

/-- The retained-column predicate of the pivot, characterised by the
rows of the de-duplicated frame. -/
theorem pivotDates_pred_iff (df : List Row) (v : Row → Option ℚ) (d : ℕ) :
    ((pivotStocks df v).any fun s => (cellVal df v s d).isSome) = true
      ↔ ∃ r ∈ dedupFirst df, r.date = d ∧ (v r).isSome := by
  rw [List.any_eq_true]
  constructor
  · rintro ⟨s, hs, hsome⟩
    obtain ⟨r, hr, -, hdd, hvv⟩ := cellVal_isSome_iff.mp (by simpa using hsome)
    exact ⟨r, hr, hdd, hvv⟩
  · rintro ⟨r, hr, hdd, hvv⟩
    exact ⟨r.stock_name, mem_pivotStocks_iff.mpr ⟨r, hr, rfl, hvv⟩,
      by simpa using cellVal_isSome_iff.mpr ⟨r, hr, rfl, hdd, hvv⟩⟩

/-- The final column index splits at a date threshold into the final
column indexes of the two window slices. -/
theorem pivotDates_split (df : List Row) (v : Row → Option ℚ) (d2 : ℕ)
    (hk : df.Pairwise fun a b => keyOf a ≠ keyOf b) :
    pivotDates df v
      = pivotDates (df.filter fun x => decide (x.date ≤ d2)) v
        ++ pivotDates (df.filter fun x => decide (d2 < x.date)) v := by
  have hded : dedupFirst df = df := dedupFirst_eq_self hk
  have hd1 : dedupFirst (df.filter fun x => decide (x.date ≤ d2))
      = df.filter fun x => decide (x.date ≤ d2) := dedupFirst_eq_self (hk.filter _)
  have hd2 : dedupFirst (df.filter fun x => decide (d2 < x.date))
      = df.filter fun x => decide (d2 < x.date) := dedupFirst_eq_self (hk.filter _)
  rw [pivotDates, pivotDates, pivotDates, pivotDates0_split df d2 hk, List.filter_append]
  have heq1 : ∀ d ∈ pivotDates0 (df.filter fun x => decide (x.date ≤ d2)),
      ((pivotStocks df v).any fun s => (cellVal df v s d).isSome)
        = ((pivotStocks (df.filter fun x => decide (x.date ≤ d2)) v).any
            fun s => (cellVal (df.filter fun x => decide (x.date ≤ d2)) v s d).isSome) := by
    intro d hd
    have hdle : d ≤ d2 := mem_pivotDates0_filter_le hd
    refine bool_eq_of_iff ?_
    rw [pivotDates_pred_iff, pivotDates_pred_iff, hded, hd1]
    constructor
    · rintro ⟨r, hr, hrd, hrv⟩
      exact ⟨r, List.mem_filter.mpr ⟨hr, by simpa using hrd ▸ hdle⟩, hrd, hrv⟩
    · rintro ⟨r, hr, hrd, hrv⟩
      exact ⟨r, (List.mem_filter.mp hr).1, hrd, hrv⟩
  have heq2 : ∀ d ∈ pivotDates0 (df.filter fun x => decide (d2 < x.date)),
      ((pivotStocks df v).any fun s => (cellVal df v s d).isSome)
        = ((pivotStocks (df.filter fun x => decide (d2 < x.date)) v).any
            fun s => (cellVal (df.filter fun x => decide (d2 < x.date)) v s d).isSome) := by
    intro d hd
    have hdgt : d2 < d := mem_pivotDates0_filter_gt hd
    refine bool_eq_of_iff ?_
    rw [pivotDates_pred_iff, pivotDates_pred_iff, hded, hd2]
    constructor
    · rintro ⟨r, hr, hrd, hrv⟩
      exact ⟨r, List.mem_filter.mpr ⟨hr, by simpa using hrd ▸ hdgt⟩, hrd, hrv⟩
    · rintro ⟨r, hr, hrd, hrv⟩
      exact ⟨r, (List.mem_filter.mp hr).1, hrd, hrv⟩
  rw [List.filter_congr heq1, List.filter_congr heq2]

/-- The retained stocks of the full frame are the union of the
retained stocks of the two window slices. -/
theorem pivotStocks_union (df : List Row) (v : Row → Option ℚ) (d2 : ℕ)
    (hk : df.Pairwise fun a b => keyOf a ≠ keyOf b) (s : String) :
    s ∈ pivotStocks df v
      ↔ s ∈ pivotStocks (df.filter fun x => decide (x.date ≤ d2)) v
        ∨ s ∈ pivotStocks (df.filter fun x => decide (d2 < x.date)) v := by
  rw [mem_pivotStocks_iff, mem_pivotStocks_iff, mem_pivotStocks_iff,
    dedupFirst_eq_self hk, dedupFirst_eq_self (hk.filter _),
    dedupFirst_eq_self (hk.filter _)]
  constructor
  · rintro ⟨r, hr, hrs, hrv⟩
    rcases (mem_filter_date_split df d2 r).mp hr with h | h
    · exact Or.inl ⟨r, h, hrs, hrv⟩
    · exact Or.inr ⟨r, h, hrs, hrv⟩
  · rintro (⟨r, hr, hrs, hrv⟩ | ⟨r, hr, hrs, hrv⟩)
    · exact ⟨r, (List.mem_filter.mp hr).1, hrs, hrv⟩
    · exact ⟨r, (List.mem_filter.mp hr).1, hrs, hrv⟩

/-- The pivot row index is duplicate-free. -/
theorem pivotStocks_nodup (df : List Row) (v : Row → Option ℚ) :
    (pivotStocks df v).Nodup :=
  (sortedDedup_nodup _).filter _

/-- The pivot row index is sorted ascending. -/
theorem pivotStocks_sorted (df : List Row) (v : Row → Option ℚ) :
    List.Sorted (· ≤ ·) (pivotStocks df v) :=
  (sortedDedup_sorted _).filter _

/-- Sorting the concatenated row index recovers the row index of the
direct pivot. -/
theorem sorted_concat_stocks (df : List Row) (v : Row → Option ℚ) (d2 : ℕ)
    (hk : df.Pairwise fun a b => keyOf a ≠ keyOf b) :
    List.insertionSort (fun a b : String => a ≤ b)
      (pivotStocks (df.filter fun x => decide (x.date ≤ d2)) v
        ++ (pivotStocks (df.filter fun x => decide (d2 < x.date)) v).filter
            fun s => decide (s ∉ pivotStocks (df.filter fun x => decide (x.date ≤ d2)) v))
      = pivotStocks df v := by
  have hnodL : (pivotStocks (df.filter fun x => decide (x.date ≤ d2)) v
      ++ (pivotStocks (df.filter fun x => decide (d2 < x.date)) v).filter
          fun s => decide
            (s ∉ pivotStocks (df.filter fun x => decide (x.date ≤ d2)) v)).Nodup := by
    rw [List.nodup_append]
    refine ⟨pivotStocks_nodup _ _, (pivotStocks_nodup _ _).filter _, ?_⟩
    intro a ha hb
    have := (List.mem_filter.mp hb).2
    simp only [decide_eq_true_eq] at this
    exact this ha
  refine List.eq_of_perm_of_sorted ?_ (List.sorted_insertionSort _ _)
    (pivotStocks_sorted df v)
  refine ((List.perm_insertionSort _ _).trans ?_)
  refine (List.perm_ext_iff_of_nodup hnodL (pivotStocks_nodup df v)).mpr ?_
  intro s
  rw [List.mem_append, List.mem_filter, pivotStocks_union df v d2 hk]
  by_cases h1 : s ∈ pivotStocks (df.filter fun x => decide (x.date ≤ d2)) v
  · simp [h1]
  · simp [h1]

/-- The row of the pivot at a retained stock. -/
theorem rowOf_pivot_mem {df : List Row} {v : Row → Option ℚ} {s : String}
    (h : s ∈ pivotStocks df v) :
    rowOf (create_pivot_table df v) s = (pivotDates df v).map (cellVal df v s) := by
  simp only [rowOf, create_pivot_table]
  rw [lookupRow_map_mem h]
  rfl

/-- The row of the pivot at a dropped stock reads as all `NaN`. -/
theorem rowOf_pivot_not_mem {df : List Row} {v : Row → Option ℚ} {s : String}
    (h : s ∉ pivotStocks df v) :
    rowOf (create_pivot_table df v) s
      = List.replicate (pivotDates df v).length none := by
  simp only [rowOf, create_pivot_table]
  rw [lookupRow_map_not_mem h]
  rfl

/-- The row of the concatenated table at a present stock is the
concatenation of its (possibly `NaN`-filled) rows in the parts. -/
theorem rowOf_concat_mem {t1 t2 : WideTable} {s : String}
    (h : s ∈ t1.stocks ++ t2.stocks.filter fun x => decide (x ∉ t1.stocks)) :
    rowOf (concatTables t1 t2) s = rowOf t1 s ++ rowOf t2 s := by
  simp only [rowOf, concatTables]
  rw [lookupRow_map_mem h]
  rfl

/-- Wide tables with equal components are equal. -/
theorem wideTable_ext {t1 t2 : WideTable} (hs : t1.stocks = t2.stocks)
    (hd : t1.dates = t2.dates) (hc : t1.cells = t2.cells) : t1 = t2 := by
  cases t1
  cases t2
  cases hs
  cases hd
  cases hc
  rfl

/-- Counterexample to claim C2 as stated: with one duplicate-free row
per window, where the late window introduces a stock sorting before
the old one, `pd.concat` leaves the row index `["B", "A"]` while the
direct pivot sorts it `["A", "B"]`, so the tables differ. -/
theorem c2_incremental_merge_counterexample :
    (c2Df.Pairwise fun a b => keyOf a ≠ keyOf b) ∧
    (concatTables
        (create_pivot_table (c2Df.filter fun r => decide (r.date ≤ 1)) (·.A_price))
        (create_pivot_table (c2Df.filter fun r => decide (1 < r.date)) (·.A_price))).stocks
      = ["B", "A"] ∧
    (create_pivot_table c2Df (·.A_price)).stocks = ["A", "B"] ∧
    concatTables
        (create_pivot_table (c2Df.filter fun r => decide (r.date ≤ 1)) (·.A_price))
        (create_pivot_table (c2Df.filter fun r => decide (1 < r.date)) (·.A_price))
      ≠ create_pivot_table c2Df (·.A_price) := by
  with_unfolding_all decide

/-- Claim C2 (amended): on a long table with no duplicate
`(stock_name, date)` keys, pivoting the `[d1, d2]` rows and the
`[d2+1, d3]` rows separately and column-concatenating the results
agrees with the direct pivot of the whole range up to row order:
re-sorting the concatenated table's rows by stock name yields exactly
the direct pivot (rows can genuinely arrive out of order, as the
counterexample shows, because `pd.concat` appends unseen row labels
at the end). -/
theorem c2_incremental_merge (df : List Row) (v : Row → Option ℚ) (d2 : ℕ)
    (hkeys : df.Pairwise fun a b => keyOf a ≠ keyOf b) :
    sortRows (concatTables
        (create_pivot_table (df.filter fun x => decide (x.date ≤ d2)) v)
        (create_pivot_table (df.filter fun x => decide (d2 < x.date)) v))
      = create_pivot_table df v := by
  refine wideTable_ext ?_ ?_ ?_
  · exact sorted_concat_stocks df v d2 hkeys
  · exact (pivotDates_split df v d2 hkeys).symm
  · show (List.insertionSort (fun a b : String => a ≤ b)
        (pivotStocks (df.filter fun x => decide (x.date ≤ d2)) v
          ++ (pivotStocks (df.filter fun x => decide (d2 < x.date)) v).filter
              fun s => decide
                (s ∉ pivotStocks (df.filter fun x => decide (x.date ≤ d2)) v))).map
          (rowOf (concatTables
            (create_pivot_table (df.filter fun x => decide (x.date ≤ d2)) v)
            (create_pivot_table (df.filter fun x => decide (d2 < x.date)) v)))
        = (pivotStocks df v).map fun s => (pivotDates df v).map (cellVal df v s)
    rw [sorted_concat_stocks df v d2 hkeys]
    refine List.map_congr_left ?_
    intro s hs
    have hsu : s ∈ (create_pivot_table (df.filter fun x => decide (x.date ≤ d2)) v).stocks
        ++ ((create_pivot_table (df.filter fun x => decide (d2 < x.date)) v).stocks).filter
            fun x => decide
              (x ∉ (create_pivot_table (df.filter fun x => decide (x.date ≤ d2)) v).stocks) := by
      rcases (pivotStocks_union df v d2 hkeys s).mp hs with h | h
      · exact List.mem_append.mpr (Or.inl h)
      · by_cases h1 : s ∈ pivotStocks (df.filter fun x => decide (x.date ≤ d2)) v
        · exact List.mem_append.mpr (Or.inl h1)
        · exact List.mem_append.mpr (Or.inr (List.mem_filter.mpr ⟨h, by simpa using h1⟩))
    rw [rowOf_concat_mem hsu, pivotDates_split df v d2 hkeys, List.map_append]
    congr 1
    · by_cases h1 : s ∈ pivotStocks (df.filter fun x => decide (x.date ≤ d2)) v
      · rw [rowOf_pivot_mem h1]
        refine List.map_congr_left ?_
        intro d hd
        have hdle : d ≤ d2 := mem_pivotDates0_filter_le (List.mem_filter.mp hd).1
        have hcv := cellVal_filter_date df v (fun y => decide (y ≤ d2)) s d hkeys
        rw [if_pos (by simpa using hdle)] at hcv
        exact hcv
      · rw [rowOf_pivot_not_mem h1]
        symm
        rw [List.eq_replicate_iff]
        refine ⟨by rw [List.length_map], ?_⟩
        intro b hb
        obtain ⟨d, hd, rfl⟩ := List.mem_map.mp hb
        have hdle : d ≤ d2 := mem_pivotDates0_filter_le (List.mem_filter.mp hd).1
        have hcv := cellVal_filter_date df v (fun y => decide (y ≤ d2)) s d hkeys
        rw [if_pos (by simpa using hdle)] at hcv
        rw [← hcv]
        exact cellVal_eq_none_of_not_memStocks h1 d
    · by_cases h1 : s ∈ pivotStocks (df.filter fun x => decide (d2 < x.date)) v
      · rw [rowOf_pivot_mem h1]
        refine List.map_congr_left ?_
        intro d hd
        have hdgt : d2 < d := mem_pivotDates0_filter_gt (List.mem_filter.mp hd).1
        have hcv := cellVal_filter_date df v (fun y => decide (d2 < y)) s d hkeys
        rw [if_pos (by simpa using hdgt)] at hcv
        exact hcv
      · rw [rowOf_pivot_not_mem h1]
        symm
        rw [List.eq_replicate_iff]
        refine ⟨by rw [List.length_map], ?_⟩
        intro b hb
        obtain ⟨d, hd, rfl⟩ := List.mem_map.mp hb
        have hdgt : d2 < d := mem_pivotDates0_filter_gt (List.mem_filter.mp hd).1
        have hcv := cellVal_filter_date df v (fun y => decide (d2 < y)) s d hkeys
        rw [if_pos (by simpa using hdgt)] at hcv
        rw [← hcv]
        exact cellVal_eq_none_of_not_memStocks h1 d

/-- Witness for the amended C2 at the concrete two-window frame:
sorting the concatenated rows gives exactly the direct pivot. -/
theorem c2_incremental_merge_witness :
    sortRows (concatTables
        (create_pivot_table (c2Df.filter fun x => decide (x.date ≤ 1)) (·.A_price))
        (create_pivot_table (c2Df.filter fun x => decide (1 < x.date)) (·.A_price)))
      = create_pivot_table c2Df (·.A_price) ∧
    (create_pivot_table c2Df (·.A_price)).stocks = ["A", "B"] :=
  ⟨c2_incremental_merge c2Df (·.A_price) 1 (by decide), by with_unfolding_all decide⟩
